import Mathlib

/-!
# Verification of the elevator simulator (`src/main.rs`)

Shallow embedding of the elevator core: floors are integers (`Int`, the
source uses `i8`; all relevant values stay far from the `i8` bounds, and
where they do not, that is itself the bug under discussion), the
`BTreeSet<Floor>` of pending stops is a strictly-ascending `List Int`,
and the `tick` state machine is a pure function on an `Elevator` record.
The two `unwrap` calls of the source (`stops.last()` / `stops.first()`)
are embedded as `Option` lookups in `tickOpt`; the total `tick` is its
`getD` completion.
-/

/-- `Dir` from the source: travel direction, `Up` is the `Default`. -/
inductive Dir where
  | up
  | down
deriving DecidableEq, Repr

/-- `State` from the source: motion state, `Stopped` is the `Default`. -/
inductive State where
  | stopped
  | moving (d : Dir)
  | opened
deriving DecidableEq, Repr

/-- `Elevator` from the source: current floor, pending stops
(`BTreeSet<Floor>`, embedded as a strictly ascending list), motion state
and direction. -/
structure Elevator where
  cur : Int
  stops : List Int
  state : State
  dir : Dir
deriving DecidableEq, Repr

namespace Elevator

/-- `Elevator::MIN`. -/
def MIN : Int := -2

/-- `Elevator::MAX`. -/
def MAX : Int := 5

/-- `Elevator::default()`: floor 0 (`i8::default()`), empty stop set,
`Stopped`, `Dir::Up`. -/
def init : Elevator := ⟨0, [], .stopped, .up⟩

/-- `Elevator::floors`: the list of floors `MIN..=MAX` in ascending
order. -/
def floors : List Int := (List.range (MAX - MIN + 1).toNat).map (fun i : Nat => MIN + (i : Int))

/-- `Elevator::validate`: a floor is accepted iff some member of
`floors` equals it (i.e. it lies in `[MIN, MAX]`). -/
def validate (floor : Int) : Bool := floors.any (fun f => f = floor)

/-- The error value produced by `validate` / `move_to` on a floor outside
the range (the source builds an `io::Error` with kind `InvalidInput` and
message "Floor not in range"; the spec calls it `OutOfRange`). -/
inductive MoveError where
  | outOfRange (floor : Int)
deriving DecidableEq, Repr

/-- `BTreeSet::insert` on the strictly-ascending-list representation:
insert `x` keeping the list strictly ascending, ignoring a duplicate. -/
def insertSorted (x : Int) : List Int → List Int
  | [] => [x]
  | y :: ys =>
    if x < y then x :: y :: ys
    else if x = y then y :: ys
    else y :: insertSorted x ys

/-- `Elevator::move_to`: validate the floor; on failure return the error
and leave the elevator untouched; on success, if the stop set is empty
seed `dir` (`Up` iff `floor > cur`), then insert the floor. The source
mutates `self` and returns `Result<()>`; here the (new elevator, error)
pair is returned. -/
def move_to (e : Elevator) (floor : Int) : Elevator × Option MoveError :=
  if validate floor then
    ({ e with
        dir := if e.stops = [] then (if floor > e.cur then .up else .down) else e.dir,
        stops := insertSorted floor e.stops },
     none)
  else
    (e, some (.outOfRange floor))

/-- `Elevator::tick`, with the two `unwrap` calls of the source embedded
as `Option` matches: `none` is the panic branch. The source first removes
the current floor from the stop set (`should_open` is whether it was a
member), then dispatches: open / idle / resume-from-rest / advance up
(flip `dir` to `Down` once at or above the greatest pending stop) /
advance down (flip `dir` to `Up` once at or below the least pending
stop). -/
def tickOpt (e : Elevator) : Option Elevator :=
  let should_open := e.cur ∈ e.stops
  let stops := e.stops.erase e.cur
  if should_open then
    some { e with state := .opened, stops := stops }
  else if stops = [] then
    some { e with state := .stopped, stops := stops }
  else
    match e.state with
    | .stopped | .opened => some { e with state := .moving e.dir, stops := stops }
    | .moving .up =>
      match stops.getLast? with
      | none => none
      | some last =>
        some { e with
                cur := e.cur + 1,
                stops := stops,
                dir := if e.cur + 1 ≥ last then .down else e.dir }
    | .moving .down =>
      match stops.head? with
      | none => none
      | some first =>
        some { e with
                cur := e.cur - 1,
                stops := stops,
                dir := if e.cur - 1 ≤ first then .up else e.dir }

/-- Total completion of `tickOpt` (the `none` branch is unreachable, see
the no-panic theorem). -/
def tick (e : Elevator) : Elevator := (tickOpt e).getD e

end Elevator

/-- The recoverable errors the main loop can hold for display:
a parse failure from the input thread, or the out-of-range error from
`move_to`. -/
inductive UiError where
  | invalidFloorText
  | outOfRange (floor : Int)
deriving DecidableEq, Repr

/-- One cycle of `main`'s loop. `msg` is the result of `try_recv`:
`none` for `Empty` (no pending input; the `Disconnected` case panics and
is outside this model), `some (.error ())` for a line that failed to
parse, `some (.ok f)` for a parsed floor. The cycle applies the message
(overwriting the held error exactly as the source does: a parsed floor
replaces it with `move_to`'s error-or-none, a parse failure replaces it
with `invalidFloorText`, and `Empty` leaves it untouched), then ticks the
elevator. The second component is the error `draw_ui` displays this
cycle. -/
def cycle (msg : Option (Except Unit Int)) (s : Elevator × Option UiError) :
    Elevator × Option UiError :=
  let step : Elevator × Option UiError :=
    match msg with
    | some (.ok f) =>
      let r := Elevator.move_to s.1 f
      (r.1, r.2.map (fun err => match err with | .outOfRange g => UiError.outOfRange g))
    | some (.error _) => (s.1, some .invalidFloorText)
    | none => (s.1, s.2)
  (Elevator.tick step.1, step.2)

/-! ## Helper lemmas -/

namespace Elevator

theorem mem_insertSorted (x a : Int) : ∀ l : List Int,
    a ∈ insertSorted x l ↔ a = x ∨ a ∈ l := by
  intro l
  induction l with
  | nil => simp [insertSorted]
  | cons y ys ih =>
    by_cases h1 : x < y
    · simp [insertSorted, h1]
    · by_cases h2 : x = y
      · subst h2; simp [insertSorted, h1]
      · simp only [insertSorted, if_neg h1, if_neg h2, List.mem_cons, ih]
        tauto

theorem insertSorted_ne_nil (x : Int) (l : List Int) : insertSorted x l ≠ [] := by
  cases l with
  | nil => simp [insertSorted]
  | cons y ys =>
    simp only [insertSorted]
    split <;> simp
    split <;> simp

theorem insertSorted_idem (x : Int) : ∀ l : List Int,
    insertSorted x (insertSorted x l) = insertSorted x l := by
  intro l
  induction l with
  | nil => simp [insertSorted]
  | cons y ys ih =>
    by_cases h1 : x < y
    · simp [insertSorted, h1, lt_irrefl]
    · by_cases h2 : x = y
      · subst h2; simp [insertSorted, h1]
      · simp only [insertSorted, if_neg h1, if_neg h2]
        rw [ih]

theorem sorted_insertSorted (x : Int) : ∀ l : List Int,
    l.Sorted (· < ·) → (insertSorted x l).Sorted (· < ·) := by
  intro l
  induction l with
  | nil => intro _; simp [insertSorted]
  | cons y ys ih =>
    intro hs
    rw [List.sorted_cons] at hs
    by_cases h1 : x < y
    · simp only [insertSorted, if_pos h1]
      rw [List.sorted_cons]
      refine ⟨?_, List.sorted_cons.mpr hs⟩
      intro b hb
      rcases List.mem_cons.mp hb with rfl | hb
      · exact h1
      · exact lt_trans h1 (hs.1 b hb)
    · by_cases h2 : x = y
      · subst h2; simp only [insertSorted, if_neg h1, if_pos rfl]
        exact List.sorted_cons.mpr hs
      · simp only [insertSorted, if_neg h1, if_neg h2]
        rw [List.sorted_cons]
        refine ⟨?_, ih hs.2⟩
        intro b hb
        rcases (mem_insertSorted x b ys).mp hb with rfl | hb
        · exact lt_of_le_of_ne (not_lt.mp h1) (Ne.symm h2)
        · exact hs.1 b hb

theorem validate_iff (f : Int) : validate f = true ↔ MIN ≤ f ∧ f ≤ MAX := by
  have h8 : (MAX - MIN + 1).toNat = 8 := by decide
  have hmin : MIN = -2 := rfl
  have hmax : MAX = 5 := rfl
  rw [validate, List.any_eq_true]
  constructor
  · rintro ⟨x, hx, hfx⟩
    have hxf : x = f := by simpa using hfx
    subst hxf
    obtain ⟨i, hi, hif⟩ := List.mem_map.mp hx
    rw [List.mem_range, h8] at hi
    rw [hmin] at hif
    rw [hmin, hmax]
    omega
  · rintro ⟨h1, h2⟩
    rw [hmin] at h1
    rw [hmax] at h2
    refine ⟨f, List.mem_map.mpr ⟨(f + 2).toNat, ?_, ?_⟩, by simp⟩
    · rw [List.mem_range, h8]
      omega
    · rw [hmin]
      omega

theorem tickOpt_open (e : Elevator) (h : e.cur ∈ e.stops) :
    tickOpt e = some { e with state := .opened, stops := e.stops.erase e.cur } := by
  simp [tickOpt, h]

theorem tickOpt_idle (e : Elevator) (h2 : e.stops = []) :
    tickOpt e = some { e with state := .stopped, stops := [] } := by
  simp [tickOpt, h2]

theorem tickOpt_resume (e : Elevator) (h1 : e.cur ∉ e.stops) (h2 : e.stops ≠ [])
    (h3 : e.state = .stopped ∨ e.state = .opened) :
    tickOpt e = some { e with state := .moving e.dir } := by
  have he : e.stops.erase e.cur = e.stops := List.erase_of_not_mem h1
  rcases h3 with h3 | h3 <;> simp [tickOpt, h1, he, h2, h3]

theorem tickOpt_up (e : Elevator) (m : Int) (h1 : e.cur ∉ e.stops)
    (h3 : e.state = .moving .up) (hm : e.stops.getLast? = some m) :
    tickOpt e = some { e with cur := e.cur + 1,
                              dir := if e.cur + 1 ≥ m then .down else e.dir } := by
  have he : e.stops.erase e.cur = e.stops := List.erase_of_not_mem h1
  have h2 : e.stops ≠ [] := by
    intro h
    rw [h] at hm
    simp at hm
  simp [tickOpt, h1, he, h2, h3, hm]

theorem tickOpt_down (e : Elevator) (m : Int) (h1 : e.cur ∉ e.stops)
    (h3 : e.state = .moving .down) (hm : e.stops.head? = some m) :
    tickOpt e = some { e with cur := e.cur - 1,
                              dir := if e.cur - 1 ≤ m then .up else e.dir } := by
  have he : e.stops.erase e.cur = e.stops := List.erase_of_not_mem h1
  have h2 : e.stops ≠ [] := by
    intro h
    rw [h] at hm
    simp at hm
  simp [tickOpt, h1, he, h2, h3, hm]

theorem tickOpt_isSome (e : Elevator) : (tickOpt e).isSome = true := by
  by_cases h1 : e.cur ∈ e.stops
  · simp [tickOpt_open e h1]
  · by_cases h2 : e.stops = []
    · simp [tickOpt_idle e h2]
    · cases h3 : e.state with
      | stopped => simp [tickOpt_resume e h1 h2 (Or.inl h3)]
      | opened => simp [tickOpt_resume e h1 h2 (Or.inr h3)]
      | moving d =>
        cases d with
        | up =>
          cases hm : e.stops.getLast? with
          | none => exact absurd (List.getLast?_eq_none_iff.mp hm) h2
          | some m => simp [tickOpt_up e m h1 h3 hm]
        | down =>
          cases hm : e.stops.head? with
          | none => exact absurd (List.head?_eq_none_iff.mp hm) h2
          | some m => simp [tickOpt_down e m h1 h3 hm]

theorem tick_of_tickOpt {e x : Elevator} (h : tickOpt e = some x) : tick e = x := by
  simp [tick, h]

theorem tick_open (e : Elevator) (h : e.cur ∈ e.stops) :
    tick e = { e with state := .opened, stops := e.stops.erase e.cur } :=
  tick_of_tickOpt (tickOpt_open e h)

theorem tick_idle (e : Elevator) (h2 : e.stops = []) :
    tick e = { e with state := .stopped, stops := [] } :=
  tick_of_tickOpt (tickOpt_idle e h2)

theorem tick_resume (e : Elevator) (h1 : e.cur ∉ e.stops) (h2 : e.stops ≠ [])
    (h3 : e.state = .stopped ∨ e.state = .opened) :
    tick e = { e with state := .moving e.dir } :=
  tick_of_tickOpt (tickOpt_resume e h1 h2 h3)

theorem tick_up (e : Elevator) (m : Int) (h1 : e.cur ∉ e.stops)
    (h3 : e.state = .moving .up) (hm : e.stops.getLast? = some m) :
    tick e = { e with cur := e.cur + 1,
                      dir := if e.cur + 1 ≥ m then .down else e.dir } :=
  tick_of_tickOpt (tickOpt_up e m h1 h3 hm)

theorem tick_down (e : Elevator) (m : Int) (h1 : e.cur ∉ e.stops)
    (h3 : e.state = .moving .down) (hm : e.stops.head? = some m) :
    tick e = { e with cur := e.cur - 1,
                      dir := if e.cur - 1 ≤ m then .up else e.dir } :=
  tick_of_tickOpt (tickOpt_down e m h1 h3 hm)

end Elevator

/-! ## Claim theorems -/

open Elevator

/-- C1: the claim states that every reachable state (any sequence of
`move_to` and `tick` calls from the default elevator) has its current
floor in `[MIN, MAX] = [-2, 5]`. The code violates it: `move_to(0)` at
floor 0 seeds `dir = Down` (the seeding test is `floor > cur`, strict),
a subsequent `move_to(3)` keeps that direction, the car opens at 0 and
then resumes `Moving(Down)` away from its only stop, decrementing
forever; after five ticks the floor is −3, below `MIN`. -/
theorem c1_range_invariant_violated :
    (tick^[5] (move_to (move_to init 0).1 3).1).cur = -3
    ∧ ¬ (MIN ≤ (tick^[5] (move_to (move_to init 0).1 3).1).cur
          ∧ (tick^[5] (move_to (move_to init 0).1 3).1).cur ≤ MAX) := by
  decide

/-- C2: `move_to f` succeeds iff `MIN ≤ f ≤ MAX`; on success `f` is in
the stop queue afterwards; on failure it returns the out-of-range error
and the elevator is returned unchanged in every field. -/
theorem c2_move_to_validates (e : Elevator) (f : Int) :
    ((move_to e f).2 = none ↔ MIN ≤ f ∧ f ≤ MAX)
    ∧ ((move_to e f).2 = none → f ∈ (move_to e f).1.stops)
    ∧ ((move_to e f).2 ≠ none → move_to e f = (e, some (.outOfRange f))) := by
  by_cases hv : validate f
  · have hr := (validate_iff f).mp hv
    refine ⟨?_, ?_, ?_⟩
    · simp [move_to, hv, hr]
    · intro _
      simp [move_to, hv, mem_insertSorted]
    · intro h
      exact absurd (by simp [move_to, hv]) h
  · have hv' : validate f = false := by simpa using hv
    have hr : ¬ (MIN ≤ f ∧ f ≤ MAX) := fun h => hv ((validate_iff f).mpr h)
    refine ⟨?_, ?_, ?_⟩
    · simp [move_to, hv', hr]
    · intro h
      simp [move_to, hv'] at h
    · intro _
      simp [move_to, hv']

/-- C2 witness at a concrete in-range input. -/
theorem c2_witness :
    (((move_to init 3).2 = none ↔ MIN ≤ 3 ∧ (3 : Int) ≤ MAX)
      ∧ ((move_to init 3).2 = none → (3 : Int) ∈ (move_to init 3).1.stops)
      ∧ ((move_to init 3).2 ≠ none → move_to init 3 = (init, some (.outOfRange 3)))) :=
  c2_move_to_validates init 3

/-- C3: Scenario A. From the default elevator, after a successful
`move_to 3`: tick 1 winds up to `Moving(Up)` at floor 0; ticks 2–3 move
to floors 1 and 2; tick 4 reaches floor 3 and flips `dir` to `Down`;
tick 5 removes 3 from the queue and opens the doors; tick 6 finds the
queue empty and stops. -/
theorem c3_scenario_a :
    (move_to init 3).2 = none
    ∧ tick^[1] (move_to init 3).1 = ⟨0, [3], .moving .up, .up⟩
    ∧ tick^[2] (move_to init 3).1 = ⟨1, [3], .moving .up, .up⟩
    ∧ tick^[3] (move_to init 3).1 = ⟨2, [3], .moving .up, .up⟩
    ∧ tick^[4] (move_to init 3).1 = ⟨3, [3], .moving .up, .down⟩
    ∧ tick^[5] (move_to init 3).1 = ⟨3, [], .opened, .down⟩
    ∧ tick^[6] (move_to init 3).1 = ⟨3, [], .stopped, .down⟩ := by
  decide

/-- C7: the two extremal-stop lookups inside `tick` (the `unwrap`s on
`stops.last()` / `stops.first()`, embedded as the `Option` matches of
`tickOpt`) can never hit their panic branch: `tickOpt` returns `some`
on every elevator value, because the advance branches are reached only
after the queue-empty test has failed. -/
theorem c7_tick_never_panics (e : Elevator) : (tickOpt e).isSome = true :=
  tickOpt_isSome e

/-- C4: after a `tick`, the motion state is `Opened` iff the current
floor was a member of the stop queue at the start of that tick; in that
case the tick removes the floor from the queue, so `Opened` occurs
exactly in the tick immediately after the removal. -/
theorem c4_opened_iff_arrival (e : Elevator) :
    ((tick e).state = .opened ↔ e.cur ∈ e.stops)
    ∧ (e.stops.Nodup → e.cur ∈ e.stops →
        (tick e).stops = e.stops.erase e.cur ∧ e.cur ∉ (tick e).stops) := by
  constructor
  · constructor
    · intro h
      by_contra h1
      by_cases h2 : e.stops = []
      · rw [tick_idle e h2] at h
        simp at h
      · cases h3 : e.state with
        | stopped =>
          rw [tick_resume e h1 h2 (Or.inl h3)] at h
          simp at h
        | opened =>
          rw [tick_resume e h1 h2 (Or.inr h3)] at h
          simp at h
        | moving d =>
          cases d with
          | up =>
            cases hm : e.stops.getLast? with
            | none => exact h2 (List.getLast?_eq_none_iff.mp hm)
            | some m =>
              rw [tick_up e m h1 h3 hm] at h
              simp [h3] at h
          | down =>
            cases hm : e.stops.head? with
            | none => exact h2 (List.head?_eq_none_iff.mp hm)
            | some m =>
              rw [tick_down e m h1 h3 hm] at h
              simp [h3] at h
    · intro h
      rw [tick_open e h]
  · intro hnd hmem
    rw [tick_open e hmem]
    exact ⟨rfl, hnd.not_mem_erase⟩

/-- C4 witness at a concrete state whose current floor is queued. -/
theorem c4_witness :
    (tick ⟨0, [0], .stopped, .up⟩).state = .opened
    ∧ (tick ⟨0, [0], .stopped, .up⟩).stops = List.erase [0] 0
    ∧ (0 : Int) ∉ (tick ⟨0, [0], .stopped, .up⟩).stops :=
  ⟨(c4_opened_iff_arrival ⟨0, [0], .stopped, .up⟩).1.mpr (by decide),
   ((c4_opened_iff_arrival ⟨0, [0], .stopped, .up⟩).2 (by decide) (by decide)).1,
   ((c4_opened_iff_arrival ⟨0, [0], .stopped, .up⟩).2 (by decide) (by decide)).2⟩

/-- C5: a successful `move_to f` leaves the current floor and the
motion state untouched; it seeds `dir` (`Up` iff `f > cur`) exactly when
the queue was empty, and leaves `dir` unchanged when the queue was
non-empty. -/
theorem c5_move_to_frame (e : Elevator) (f : Int) (hf : validate f = true) :
    (move_to e f).2 = none
    ∧ (move_to e f).1.cur = e.cur
    ∧ (move_to e f).1.state = e.state
    ∧ (e.stops = [] → (move_to e f).1.dir = (if f > e.cur then Dir.up else Dir.down))
    ∧ (e.stops ≠ [] → (move_to e f).1.dir = e.dir) := by
  refine ⟨by simp [move_to, hf], by simp [move_to, hf], by simp [move_to, hf], ?_, ?_⟩
  · intro h
    simp [move_to, hf, h]
  · intro h
    simp [move_to, hf, h]

/-- C5 witness at the default elevator (empty queue) and floor 3. -/
theorem c5_witness :
    (move_to init 3).2 = none
    ∧ (move_to init 3).1.cur = init.cur
    ∧ (move_to init 3).1.state = init.state
    ∧ (move_to init 3).1.dir = Dir.up := by
  have H := c5_move_to_frame init 3 (by decide)
  refine ⟨H.1, H.2.1, H.2.2.1, ?_⟩
  have h := H.2.2.2.1 rfl
  simpa using h

/-- C6: with no intervening tick, a second `move_to f` leaves the stop
queue identical to a single call, and the queue stays a duplicate-free
ascending chain. -/
theorem c6_move_to_idempotent (e : Elevator) (f : Int) (hf : validate f = true)
    (hs : e.stops.Sorted (· < ·)) :
    (move_to (move_to e f).1 f).1.stops = (move_to e f).1.stops
    ∧ (move_to e f).1.stops.Sorted (· < ·)
    ∧ (move_to e f).1.stops.Nodup := by
  have h1 : (move_to e f).1.stops = insertSorted f e.stops := by
    simp [move_to, hf]
  have hsor := sorted_insertSorted f e.stops hs
  refine ⟨?_, by rw [h1]; exact hsor, by rw [h1]; exact hsor.nodup⟩
  have h2 : (move_to (move_to e f).1 f).1.stops
      = insertSorted f (move_to e f).1.stops := by
    simp [move_to, hf]
  rw [h2, h1, insertSorted_idem]

/-- C6 witness at a concrete state with a sorted two-element queue. -/
theorem c6_witness :
    (move_to (move_to ⟨0, [1, 4], .stopped, .up⟩ 3).1 3).1.stops
      = (move_to ⟨0, [1, 4], .stopped, .up⟩ 3).1.stops
    ∧ (move_to ⟨0, [1, 4], .stopped, .up⟩ 3).1.stops.Sorted (· < ·)
    ∧ (move_to ⟨0, [1, 4], .stopped, .up⟩ 3).1.stops.Nodup :=
  c6_move_to_idempotent ⟨0, [1, 4], .stopped, .up⟩ 3 (by decide)
    (by simp [List.sorted_cons])

/-- C10: a tick taken in an advance branch (car `Moving d`, current
floor not queued, queue non-empty) leaves the motion state `Moving d`
with the same embedded direction, even if it flips the separate `dir`
field at an extremal stop; the `dir` field is read into the motion
state only by a resume-from-rest tick (`Stopped`/`Opened`, floor not
queued, queue non-empty). -/
theorem c10_moving_state_preserved (e : Elevator) (d : Dir)
    (h1 : e.state = .moving d) (h2 : e.cur ∉ e.stops) (h3 : e.stops ≠ []) :
    (tick e).state = .moving d
    ∧ (∀ e' : Elevator, (e'.state = .stopped ∨ e'.state = .opened) →
        e'.cur ∉ e'.stops → e'.stops ≠ [] → (tick e').state = .moving e'.dir) := by
  constructor
  · cases d with
    | up =>
      cases hm : e.stops.getLast? with
      | none => exact absurd (List.getLast?_eq_none_iff.mp hm) h3
      | some m =>
        rw [tick_up e m h2 h1 hm]
        exact h1
    | down =>
      cases hm : e.stops.head? with
      | none => exact absurd (List.head?_eq_none_iff.mp hm) h3
      | some m =>
        rw [tick_down e m h2 h1 hm]
        exact h1
  · intro e' h3' h1' h2'
    rw [tick_resume e' h1' h2' h3']

/-- C10 witness: an advance tick at the top stop keeps `Moving(Up)`
while flipping `dir`, and a resume tick reads the `dir` field. -/
theorem c10_witness :
    (tick ⟨2, [3], .moving .up, .up⟩).state = .moving .up
    ∧ (tick ⟨0, [3], .opened, .down⟩).state = .moving .down := by
  have H := c10_moving_state_preserved ⟨2, [3], .moving .up, .up⟩ .up rfl
    (by decide) (by decide)
  exact ⟨H.1, H.2 ⟨0, [3], .opened, .down⟩ (Or.inr rfl) (by decide) (by decide)⟩

/-- C8 counterexample: the claim says a recoverable error is cleared by
the next cycle that produces no new error, e.g. one with no pending
input message. In the code the `Empty` branch of `try_recv` leaves the
held error untouched, so the out-of-range error from a first cycle is
still displayed by a following input-free cycle. -/
theorem c8_counterexample :
    (cycle none (cycle (some (Except.ok 99)) (init, none))).2
      = some (UiError.outOfRange 99) := by
  decide

/-- C8 as amended: a cycle with no pending input message leaves the held
error unchanged (it keeps being displayed); the error is replaced only
by a cycle that consumes a message — cleared when that message is an
in-range floor (successful `move_to`), set to the out-of-range error for
an out-of-range floor, and set to the parse error for unparsable input.
At most the latest error is ever held. -/
theorem c8_error_latest_only (s : Elevator × Option UiError) (f : Int) :
    (cycle none s).2 = s.2
    ∧ (validate f = true → (cycle (some (Except.ok f)) s).2 = none)
    ∧ (validate f = false →
        (cycle (some (Except.ok f)) s).2 = some (UiError.outOfRange f))
    ∧ (cycle (some (Except.error ())) s).2 = some UiError.invalidFloorText := by
  refine ⟨rfl, ?_, ?_, rfl⟩
  · intro hv
    simp [cycle, move_to, hv]
  · intro hv
    simp [cycle, move_to, hv]

/-- C8 witness: a held parse error survives a neutral cycle, and an
out-of-range request replaces it. -/
theorem c8_witness :
    (cycle none (init, some UiError.invalidFloorText)).2
      = some UiError.invalidFloorText
    ∧ (cycle (some (Except.ok 99)) (init, some UiError.invalidFloorText)).2
      = some (UiError.outOfRange 99) := by
  have H := c8_error_latest_only (init, some UiError.invalidFloorText) 99
  exact ⟨H.1, H.2.2.1 (by decide)⟩

/-- Advancing upward toward a single pending stop `f`: while the car has
not yet reached `f`, each tick increments the floor and keeps the car
`Moving(Up)` (the `dir` field may flip on the last step, which is why it
is existential). -/
theorem run_up (f : Int) : ∀ (k : Nat) (c : Int) (d : Dir), c + k ≤ f →
    ∃ d', tick^[k] (⟨c, [f], .moving .up, d⟩ : Elevator)
      = ⟨c + k, [f], .moving .up, d'⟩ := by
  intro k
  induction k with
  | zero =>
    intro c d _
    exact ⟨d, by simp⟩
  | succ k ih =>
    intro c d hck
    have hcf : c < f := by
      push_cast at hck
      omega
    have hmem : c ∉ ([f] : List Int) := by
      simp
      omega
    have hstep : tick (⟨c, [f], .moving .up, d⟩ : Elevator)
        = ⟨c + 1, [f], .moving .up, if c + 1 ≥ f then .down else d⟩ :=
      tick_up _ f hmem rfl rfl
    obtain ⟨d', hd'⟩ := ih (c + 1) (if c + 1 ≥ f then Dir.down else d)
      (by push_cast at hck ⊢; omega)
    refine ⟨d', ?_⟩
    rw [Function.iterate_succ_apply, hstep, hd']
    have hc : c + 1 + (k : Int) = c + ((k : Nat) + 1 : Nat) := by
      push_cast
      ring
    rw [hc]

/-- Advancing downward toward a single pending stop `f`, symmetric to
the upward run. -/
theorem run_down (f : Int) : ∀ (k : Nat) (c : Int) (d : Dir), f ≤ c - k →
    ∃ d', tick^[k] (⟨c, [f], .moving .down, d⟩ : Elevator)
      = ⟨c - k, [f], .moving .down, d'⟩ := by
  intro k
  induction k with
  | zero =>
    intro c d _
    exact ⟨d, by simp⟩
  | succ k ih =>
    intro c d hck
    have hcf : f < c := by
      push_cast at hck
      omega
    have hmem : c ∉ ([f] : List Int) := by
      simp
      omega
    have hstep : tick (⟨c, [f], .moving .down, d⟩ : Elevator)
        = ⟨c - 1, [f], .moving .down, if c - 1 ≤ f then .up else d⟩ :=
      tick_down _ f hmem rfl rfl
    obtain ⟨d', hd'⟩ := ih (c - 1) (if c - 1 ≤ f then Dir.up else d)
      (by push_cast at hck ⊢; omega)
    refine ⟨d', ?_⟩
    rw [Function.iterate_succ_apply, hstep, hd']
    have hc : c - 1 - (k : Int) = c - ((k : Nat) + 1 : Nat) := by
      push_cast
      ring
    rw [hc]

/-- C9: liveness for a single request. From an idle elevator (`Stopped`,
empty queue) at an in-range floor `c`, a successful `move_to f` with
`f ≠ c` in range is followed, after finitely many ticks, by a state
whose doors are `Opened` at floor `f` with `f` no longer queued. -/
theorem c9_single_request_liveness (c f : Int) (d : Dir)
    (_hc : validate c = true) (hf : validate f = true) (hne : c ≠ f) :
    (move_to ⟨c, [], .stopped, d⟩ f).2 = none
    ∧ ∃ n : Nat,
        (tick^[n] (move_to ⟨c, [], .stopped, d⟩ f).1).state = .opened
        ∧ (tick^[n] (move_to ⟨c, [], .stopped, d⟩ f).1).cur = f
        ∧ f ∉ (tick^[n] (move_to ⟨c, [], .stopped, d⟩ f).1).stops := by
  have hmemc : c ∉ ([f] : List Int) := by simpa using hne
  refine ⟨by simp [move_to, hf], ?_⟩
  by_cases hcf : f > c
  · have he1 : (move_to ⟨c, [], .stopped, d⟩ f).1 = ⟨c, [f], .stopped, .up⟩ := by
      simp [move_to, hf, insertSorted, hcf]
    have he2 : tick (⟨c, [f], .stopped, .up⟩ : Elevator) = ⟨c, [f], .moving .up, .up⟩ :=
      tick_resume _ hmemc (by simp) (Or.inl rfl)
    have hkc : c + ((f - c).toNat : Int) = f := by
      rw [Int.toNat_of_nonneg (by omega : (0:Int) ≤ f - c)]
      ring
    obtain ⟨d', hd'⟩ := run_up f (f - c).toNat c .up (le_of_eq hkc)
    have hopen : tick (⟨f, [f], .moving .up, d'⟩ : Elevator) = ⟨f, [], .opened, d'⟩ := by
      have h := tick_open (⟨f, [f], .moving .up, d'⟩ : Elevator) (by simp)
      rw [h]
      simp
    have hiter : tick^[(f - c).toNat + 2] (move_to ⟨c, [], .stopped, d⟩ f).1
        = ⟨f, [], .opened, d'⟩ := by
      rw [he1]
      rw [show (f - c).toNat + 2 = ((f - c).toNat + 1) + 1 from rfl]
      rw [Function.iterate_succ_apply']
      rw [Function.iterate_succ_apply]
      rw [he2, hd', hkc, hopen]
    exact ⟨(f - c).toNat + 2, by rw [hiter], by rw [hiter], by rw [hiter]; simp⟩
  · have he1 : (move_to ⟨c, [], .stopped, d⟩ f).1 = ⟨c, [f], .stopped, .down⟩ := by
      simp [move_to, hf, insertSorted, hcf]
    have he2 : tick (⟨c, [f], .stopped, .down⟩ : Elevator)
        = ⟨c, [f], .moving .down, .down⟩ :=
      tick_resume _ hmemc (by simp) (Or.inl rfl)
    have hfc : f < c := by
      rcases lt_or_eq_of_le (not_lt.mp hcf) with h | h
      · exact h
      · exact absurd h.symm hne
    have hkc : c - ((c - f).toNat : Int) = f := by
      rw [Int.toNat_of_nonneg (by omega : (0:Int) ≤ c - f)]
      ring
    obtain ⟨d', hd'⟩ := run_down f (c - f).toNat c .down (ge_of_eq hkc)
    have hopen : tick (⟨f, [f], .moving .down, d'⟩ : Elevator) = ⟨f, [], .opened, d'⟩ := by
      have h := tick_open (⟨f, [f], .moving .down, d'⟩ : Elevator) (by simp)
      rw [h]
      simp
    have hiter : tick^[(c - f).toNat + 2] (move_to ⟨c, [], .stopped, d⟩ f).1
        = ⟨f, [], .opened, d'⟩ := by
      rw [he1]
      rw [show (c - f).toNat + 2 = ((c - f).toNat + 1) + 1 from rfl]
      rw [Function.iterate_succ_apply']
      rw [Function.iterate_succ_apply]
      rw [he2, hd', hkc, hopen]
    exact ⟨(c - f).toNat + 2, by rw [hiter], by rw [hiter], by rw [hiter]; simp⟩

/-- C9 witness at `c = 0`, `f = 3`. -/
theorem c9_witness :
    (move_to ⟨0, [], .stopped, .up⟩ 3).2 = none
    ∧ ∃ n : Nat,
        (tick^[n] (move_to ⟨0, [], .stopped, .up⟩ 3).1).state = .opened
        ∧ (tick^[n] (move_to ⟨0, [], .stopped, .up⟩ 3).1).cur = 3
        ∧ (3 : Int) ∉ (tick^[n] (move_to ⟨0, [], .stopped, .up⟩ 3).1).stops :=
  c9_single_request_liveness 0 3 .up (by decide) (by decide) (by decide)
